import Mathlib

/-!
The C binding layer of sentencepiece_dart.

A shallow embedding of `ios/Classes/src/sentencepiece_processor_c.h` and
`ios/Classes/src/sentencepiece_processor_c.cc`.

The binding layer works on dynamically allocated storage (the processor object
behind the handle, the buffers of the `std::vector` and `std::string` temporaries),
so the embedding passes an explicit heap through every function.  A function that
can leave the defined behaviour of C++ (a handle that does not address a live
processor, `front()` of an empty string, `free` of storage that `malloc` did not
hand out) or terminate the process (`LoadOrDie`) returns an `Outcome`.
-/

namespace SentencepieceC

/-! ## Storage model -/

/-- Address of a block of dynamically allocated storage; `0` is the null pointer. -/
abbrev Addr := Nat

/-- The null pointer. -/
def nullptr : Addr := 0

/-- Modelled from the spec: the status codes of the wrapped library
(`sentencepiece::util::StatusCode` is declared in `sentencepiece_processor.h`, which is
not among the sources).  The binding layer names `kOk` only; every other code is kept
by its number. -/
inductive StatusCode where
  | kOk
  | other (code : Nat)
  deriving DecidableEq, Repr

/-- Value returned by `SentencePieceProcessor::status()`; `code()` is its only use here. -/
structure Status where
  code : StatusCode
  deriving DecidableEq, Repr

/-- The wrapped processor object, as far as the binding layer observes it: the status
it reports and what its two const encoders produce for an input.  The class itself
belongs to the wrapped library; its observable behaviour is taken as given. -/
structure SentencePieceProcessor where
  status : Status
  EncodeAsIds : String → List Int
  EncodeAsPieces : String → List String

/-- Which allocation function handed out a block: `operator new` (new-expressions and
`std::allocator`) or the `malloc` family (the storage `free` releases). -/
inductive Allocator where
  | operatorNew
  | malloc
  deriving DecidableEq, Repr

/-- What a block of storage holds. -/
inductive Obj where
  /-- a processor object -/
  | processor (p : SentencePieceProcessor)
  /-- the buffer of a `std::vector<int>` -/
  | ints (xs : List Int)
  /-- the character storage of a `std::string`: its bytes, followed by the
  terminating NUL -/
  | chars (cs : List Nat)
  /-- the buffer of a `std::vector<std::string>`: one string object per element,
  given by the address of its character storage -/
  | strings (ss : List Addr)
  /-- the buffer of a `std::vector<char*>` -/
  | ptrs (ps : List Addr)

/-- A live block: the allocation function it came from and its contents. -/
structure Block where
  source : Allocator
  obj : Obj

/-- The live blocks, most recently allocated first. -/
structure Heap where
  cells : List (Addr × Block)

namespace Heap

/-- Largest address in use (`0` when nothing is allocated). -/
def top (h : Heap) : Addr := (h.cells.map Prod.fst).foldr max 0

/-- Address handed out by the next allocation: non-null and not in use. -/
def fresh (h : Heap) : Addr := h.top + 1

/-- The live block at an address; nothing lives at the null pointer. -/
def block (h : Heap) (a : Addr) : Option Block :=
  if a = nullptr then none else h.cells.lookup a

/-- Allocation: a new block at a fresh address.  Storage is taken to be unbounded, so
allocation always succeeds (`operator new` reports exhaustion by throwing, never by a
null result). -/
def alloc (h : Heap) (k : Allocator) (o : Obj) : Addr × Heap :=
  (h.fresh, ⟨(h.fresh, ⟨k, o⟩) :: h.cells⟩)

/-- Deallocation: the block at the address is no longer live. -/
def release (h : Heap) (a : Addr) : Heap :=
  ⟨h.cells.filter (fun c => c.1 != a)⟩

/-- Assignment to the object held by the block at an address. -/
def store (h : Heap) (a : Addr) (o : Obj) : Heap :=
  ⟨h.cells.map (fun c => if c.1 == a then (c.1, ⟨c.2.source, o⟩) else c)⟩

/-- The processor a handle addresses (`static_cast<SentencePieceProcessor*>` followed
by a member access), when there is one. -/
def processorAt (h : Heap) (a : Addr) : Option SentencePieceProcessor :=
  match h.block a with
  | some ⟨_, .processor p⟩ => some p
  | _ => none

/-- Read `p[i]` through an `int*`. -/
def readInt (h : Heap) (p : Addr) (i : Nat) : Option Int :=
  match h.block p with
  | some ⟨_, .ints xs⟩ => xs[i]?
  | _ => none

end Heap

/-- How a call ends. -/
inductive Outcome (α : Type) where
  /-- normal return -/
  | ret (v : α)
  /-- the process is terminated -/
  | abort
  /-- undefined behaviour -/
  | undefined

/-! ## Standard-library temporaries -/

/-- A `std::vector` object: the address of its buffer (`data()`, null when it has
none) and the elements the buffer holds. -/
structure StdVector (α : Type) where
  data : Addr
  elems : List α

namespace StdVector

/-- `size()`. -/
def size {α : Type} (v : StdVector α) : Nat := v.elems.length

/-- A default-constructed vector: no buffer. -/
def empty {α : Type} : StdVector α := ⟨nullptr, []⟩

/-- A vector holding the given elements: its buffer comes from `std::allocator`; an
empty vector has no buffer. -/
def ofList {α : Type} (wrap : List α → Obj) (h : Heap) (xs : List α) : StdVector α × Heap :=
  if xs.isEmpty then (⟨nullptr, []⟩, h)
  else
    let r := h.alloc .operatorNew (wrap xs)
    (⟨r.1, xs⟩, r.2)

/-- Deallocation of the buffer, as the destructor does. -/
def deallocate {α : Type} (v : StdVector α) (h : Heap) : Heap :=
  if v.data = nullptr then h else h.release v.data

/-- `push_back`.  The growth policy is left to the implementation by the standard; here
every push moves the elements to a new buffer of the exact size and gives the old
buffer back. -/
def push_back {α : Type} (wrap : List α → Obj) (v : StdVector α) (h : Heap) (x : α) :
    StdVector α × Heap :=
  let r := h.alloc .operatorNew (wrap (v.elems ++ [x]))
  (⟨r.1, v.elems ++ [x]⟩, v.deallocate r.2)

end StdVector

/-- The bytes a `std::string` holds for a piece of text: its UTF-8 encoding. -/
def utf8Bytes (s : String) : List Nat :=
  (s.data.flatMap String.utf8EncodeChar).map UInt8.toNat

/-- A `std::string` object: the address of its character storage and the bytes it
holds (`size()` of them); the storage holds these bytes followed by a NUL.
The small-string optimisation is not modelled: every string has a block of its own. -/
structure StdString where
  data : Addr
  bytes : List Nat

namespace StdString

/-- A string object holding the given text. -/
def ofString (h : Heap) (s : String) : StdString × Heap :=
  let r := h.alloc .operatorNew (.chars (utf8Bytes s ++ [0]))
  (⟨r.1, utf8Bytes s⟩, r.2)

/-- The address `&s.front()`; `front()` of an empty string is undefined. -/
def frontAddr (s : StdString) : Option Addr :=
  if s.bytes.isEmpty then none else some s.data

end StdString

/-- The string objects for a list of pieces, constructed in order. -/
def stringsOf : Heap → List String → List StdString × Heap
  | h, [] => ([], h)
  | h, s :: rest =>
    let r := StdString.ofString h s
    let q := stringsOf r.2 rest
    (r.1 :: q.1, q.2)

/-- Destruction of string objects in order: each gives its character storage back. -/
def destroyStrings : List StdString → Heap → Heap
  | [], h => h
  | s :: rest, h => destroyStrings rest (h.release s.data)

/-- A `std::vector<std::string>` holding the given pieces. -/
def vectorOfStrings (h : Heap) (pieces : List String) : StdVector StdString × Heap :=
  let r := stringsOf h pieces
  StdVector.ofList (fun ss => .strings (ss.map StdString.data)) r.2 r.1

/-- Destructor of a `std::vector<std::string>`: the elements, then the buffer. -/
def destroyVectorOfStrings (v : StdVector StdString) (h : Heap) : Heap :=
  v.deallocate (destroyStrings v.elems h)

/-- Conversion of a `size_t` count to `int` (32 bits, two's complement): the value is
reduced modulo `2^32` and read as signed. -/
def toInt (n : Nat) : Int :=
  if n % 2 ^ 32 < 2 ^ 31 then ((n % 2 ^ 32 : Nat) : Int) else ((n % 2 ^ 32 : Nat) : Int) - 2 ^ 32

/-! ## sentencepiece_processor_c.h -/

/-- `struct StringArray`. -/
structure StringArray where
  data : Addr
  size : Int
  deriving DecidableEq, Repr

/-- `struct Int32Array`. -/
structure Int32Array where
  data : Addr
  len : Int
  deriving DecidableEq, Repr

/-- `createStringArray`. -/
def createStringArray (cstring : Addr) (len : Int) : StringArray :=
  { data := cstring, size := len }

/-- `createInt32Array`. -/
def createInt32Array (arr : Addr) (len : Int) : Int32Array :=
  { data := arr, len := len }

/-! ## sentencepiece_processor_c.cc -/

/-- `sentencepieceInit`: `new sentencepiece::SentencePieceProcessor`.  The state the
default constructor of the wrapped class leaves is the parameter `ctor`. -/
def sentencepieceInit (ctor : SentencePieceProcessor) (h : Heap) : Addr × Heap :=
  h.alloc .operatorNew (.processor ctor)

/-- `sentencepieceDestroy`: `delete processor`.  Deleting a null pointer does nothing;
deleting anything but a live object created by `new` is undefined. -/
def sentencepieceDestroy (h : Heap) (processorhandle : Addr) : Outcome Heap :=
  if processorhandle = nullptr then .ret h
  else
    match h.block processorhandle with
    | some ⟨.operatorNew, .processor _⟩ => .ret (h.release processorhandle)
    | _ => .undefined

/-- `free_int_array`: `free(arr)`.  Freeing a null pointer does nothing; freeing
anything but a live block handed out by the `malloc` family is undefined. -/
def free_int_array (h : Heap) (arr : Addr) : Outcome Heap :=
  if arr = nullptr then .ret h
  else
    match h.block arr with
    | some ⟨.malloc, _⟩ => .ret (h.release arr)
    | _ => .undefined

/-- Modelled from the spec: `SentencePieceProcessor::LoadOrDie` (its definition is in
the wrapped library, not among the sources).  `Load` is the underlying load of the
model file at a path: the processor state it yields, or the error it fails with.
"A failed model load is documented to terminate the process rather than return a
recoverable error", and "readiness reflects whether load succeeded". -/
def SentencePieceProcessor.LoadOrDie
    (Load : SentencePieceProcessor → String → Except StatusCode SentencePieceProcessor)
    (self : SentencePieceProcessor) (filename : String) : Outcome SentencePieceProcessor :=
  match Load self filename with
  | .ok loaded => .ret { loaded with status := ⟨.kOk⟩ }
  | .error _ => .abort

/-- Modelled from the spec: the state the default constructor of the wrapped class
leaves (the constructor is in the wrapped library, not among the sources): no load has
succeeded, so the processor is not ready; it reports the code numbered `code`, and its
encoders are `ids` and `pieces`. -/
def SentencePieceProcessor.unloaded (code : Nat) (ids : String → List Int)
    (pieces : String → List String) : SentencePieceProcessor :=
  { status := ⟨.other code⟩, EncodeAsIds := ids, EncodeAsPieces := pieces }

/-- `loadModelFile`: `processor->LoadOrDie(filename)`. -/
def loadModelFile
    (Load : SentencePieceProcessor → String → Except StatusCode SentencePieceProcessor)
    (h : Heap) (processorhandle : Addr) (filename : String) : Outcome Heap :=
  match h.processorAt processorhandle with
  | none => .undefined
  | some processor =>
    match processor.LoadOrDie Load filename with
    | .ret loaded => .ret (h.store processorhandle (.processor loaded))
    | .abort => .abort
    | .undefined => .undefined

/-- `checkModelLoaded`. -/
def checkModelLoaded (h : Heap) (processorhandle : Addr) : Outcome (Int × Heap) :=
  match h.processorAt processorhandle with
  | none => .undefined
  | some processor =>
    if processor.status.code = StatusCode.kOk then .ret (1, h)
    else .ret (0, h)

/-- `resetVocabulary`: `processor->ResetVocabulary()`; what the wrapped method does to
the processor is the parameter `ResetVocabulary`. -/
def resetVocabulary (ResetVocabulary : SentencePieceProcessor → SentencePieceProcessor)
    (h : Heap) (processorhandle : Addr) : Outcome Heap :=
  match h.processorAt processorhandle with
  | none => .undefined
  | some processor => .ret (h.store processorhandle (.processor (ResetVocabulary processor)))

/-- State of `encodeAsIds` at its `return` statement: the struct about to be returned,
the local `result`, and the heap, before the locals are destroyed. -/
def encodeAsIdsBody (h : Heap) (processorhandle : Addr) (input : String) :
    Outcome (Int32Array × StdVector Int × Heap) :=
  match h.processorAt processorhandle with
  | none => .undefined
  | some processor =>
    let result := StdVector.ofList Obj.ints h (processor.EncodeAsIds input)
    let c_result := createInt32Array result.1.data (toInt result.1.size)
    .ret (c_result, result.1, result.2)

/-- `encodeAsIds`: the body, then the destructor of the local `result`. -/
def encodeAsIds (h : Heap) (processorhandle : Addr) (input : String) :
    Outcome (Int32Array × Heap) :=
  match encodeAsIdsBody h processorhandle input with
  | .ret (c_result, result, h1) => .ret (c_result, result.deallocate h1)
  | .abort => .abort
  | .undefined => .undefined

/-- The loop `for (auto& i : result) cstrings.push_back(&i.front());`. -/
def pushFronts : List StdString → StdVector Addr × Heap → Option (StdVector Addr × Heap)
  | [], st => some st
  | i :: rest, st =>
    match i.frontAddr with
    | none => none
    | some p => pushFronts rest (StdVector.push_back Obj.ptrs st.1 st.2 p)

/-- State of `encodeAsPieces` at its `return` statement: the struct about to be
returned, the locals `result` and `cstrings`, and the heap, before the locals are
destroyed. -/
def encodeAsPiecesBody (h : Heap) (processorhandle : Addr) (input : String) :
    Outcome (StringArray × StdVector StdString × StdVector Addr × Heap) :=
  match h.processorAt processorhandle with
  | none => .undefined
  | some processor =>
    let result := vectorOfStrings h (processor.EncodeAsPieces input)
    match pushFronts result.1.elems (StdVector.empty, result.2) with
    | none => .undefined
    | some (cstrings, h2) =>
      .ret (createStringArray cstrings.data (toInt cstrings.size), result.1, cstrings, h2)

/-- `encodeAsPieces`: the body, then the destructors of the locals in reverse order of
declaration (`cstrings`, then `result`). -/
def encodeAsPieces (h : Heap) (processorhandle : Addr) (input : String) :
    Outcome (StringArray × Heap) :=
  match encodeAsPiecesBody h processorhandle input with
  | .ret (r, result, cstrings, h2) =>
    .ret (r, destroyVectorOfStrings result (cstrings.deallocate h2))
  | .abort => .abort
  | .undefined => .undefined

/-! ## Sample states -/

/-- A processor that is ready and encodes every input to three ids and two pieces. -/
def sampleProcessor : SentencePieceProcessor :=
  { status := ⟨.kOk⟩, EncodeAsIds := fun _ => [5, 6, 7], EncodeAsPieces := fun _ => ["ab", "c"] }

/-- A heap holding one processor, at address 1. -/
def sampleHeap : Heap := ⟨[(1, ⟨.operatorNew, .processor sampleProcessor⟩)]⟩

/-- A load that succeeds on every path and keeps the encoders of the processor. -/
def sampleLoad : SentencePieceProcessor → String → Except StatusCode SentencePieceProcessor :=
  fun p _ => .ok p

/-- A load that fails on every path. -/
def failingLoad : SentencePieceProcessor → String → Except StatusCode SentencePieceProcessor :=
  fun _ _ => .error (.other 5)

/-- A processor whose `EncodeAsIds` produces `2^31` ids. -/
def bigProcessor : SentencePieceProcessor :=
  { status := ⟨.kOk⟩
    EncodeAsIds := fun _ => List.replicate (2 ^ 31) 0
    EncodeAsPieces := fun _ => List.replicate (2 ^ 31) "a" }

/-- A heap holding that processor, at address 1. -/
def bigHeap : Heap := ⟨[(1, ⟨.operatorNew, .processor bigProcessor⟩)]⟩

/-- Loop invariant of `encodeAsPieces`: the heap is `h1` with, on top of it, the buffer
of `cstrings` (when it has one), and that buffer holds the elements of `cstrings`. -/
def BufferOver (h1 : Heap) (st : StdVector Addr × Heap) : Prop :=
  (st.1.data = nullptr ∧ st.1.elems = [] ∧ st.2 = h1) ∨
  (h1.top < st.1.data ∧
    st.2 = ⟨(st.1.data, ⟨.operatorNew, .ptrs st.1.elems⟩) :: h1.cells⟩)

/-! ## Heap lemmas -/

theorem Heap.le_top (h : Heap) (c : Addr × Block) (hc : c ∈ h.cells) : c.1 ≤ h.top := by
  obtain ⟨cells⟩ := h
  simp only [Heap.top]
  induction cells with
  | nil => cases hc
  | cons d ds ih =>
    simp only [List.map_cons, List.foldr_cons]
    rcases List.mem_cons.mp hc with rfl | hmem
    · exact le_max_left _ _
    · exact le_trans (ih hmem) (le_max_right _ _)

theorem Heap.fresh_ne_null (h : Heap) : h.fresh ≠ nullptr := by
  simp [Heap.fresh, nullptr]

theorem Heap.lookup_above (h : Heap) (a : Addr) (ha : h.top < a) : h.cells.lookup a = none := by
  have key : ∀ c ∈ h.cells, c.1 ≠ a := fun c hc e =>
    Nat.lt_irrefl a (Nat.lt_of_le_of_lt (e ▸ h.le_top c hc) ha)
  generalize h.cells = cells at key
  induction cells with
  | nil => rfl
  | cons d ds ih =>
    obtain ⟨k, v⟩ := d
    have hk : k ≠ a := key (k, v) (List.mem_cons_self _ _)
    have hne : (a == k) = false := by
      simpa using fun e : a = k => hk e.symm
    rw [List.lookup_cons, hne]
    exact ih (fun c hc => key c (List.mem_cons_of_mem _ hc))

theorem Heap.filter_above (h : Heap) (a : Addr) (ha : h.top < a) :
    h.cells.filter (fun c => c.1 != a) = h.cells := by
  apply List.filter_eq_self.mpr
  intro c hc
  simp only [bne_iff_ne, ne_eq]
  exact fun e => Nat.lt_irrefl a (Nat.lt_of_le_of_lt (e ▸ h.le_top c hc) ha)

theorem Heap.block_above (h : Heap) (a : Addr) (ha : h.top < a) : h.block a = none := by
  simp only [Heap.block]
  split
  · rfl
  · exact h.lookup_above a ha

theorem Heap.block_fresh (h : Heap) : h.block h.fresh = none :=
  h.block_above h.fresh (Nat.lt_succ_self _)

theorem Heap.release_above (h : Heap) (a : Addr) (ha : h.top < a) : h.release a = h := by
  obtain ⟨cells⟩ := h
  simp only [Heap.release]
  congr 1
  exact Heap.filter_above ⟨cells⟩ a ha

theorem Heap.release_cons_self (a : Addr) (b : Block) (cells : List (Addr × Block)) :
    Heap.release ⟨(a, b) :: cells⟩ a = Heap.release ⟨cells⟩ a := by
  simp [Heap.release]

theorem Heap.release_alloc (h : Heap) (k : Allocator) (o : Obj) :
    (h.alloc k o).2.release (h.alloc k o).1 = h := by
  simp only [Heap.alloc]
  rw [Heap.release_cons_self]
  exact h.release_above h.fresh (Nat.lt_succ_self _)

theorem Heap.block_alloc (h : Heap) (k : Allocator) (o : Obj) (b : Addr) :
    (h.alloc k o).2.block b = if b = h.fresh then some ⟨k, o⟩ else h.block b := by
  simp only [Heap.alloc, Heap.block]
  by_cases hb0 : b = nullptr
  · have : ¬ nullptr = h.fresh := fun e => h.fresh_ne_null e.symm
    simp [hb0, this]
  · by_cases hb : b = h.fresh
    · subst hb
      simp [hb0, List.lookup_cons]
    · have : (b == h.fresh) = false := by simpa using hb
      simp [hb0, hb, List.lookup_cons, this]

theorem Heap.lookup_filter_ne (cells : List (Addr × Block)) (a b : Addr) :
    (cells.filter (fun c => c.1 != a)).lookup b = if b = a then none else cells.lookup b := by
  induction cells with
  | nil => simp
  | cons d ds ih =>
    obtain ⟨k, v⟩ := d
    by_cases hk : k = a
    · subst hk
      have : ((k, v).1 != k) = false := by simp
      rw [List.filter_cons_of_neg (by simp), ih]
      by_cases hb : b = k
      · simp [hb]
      · have : (b == k) = false := by simpa using hb
        simp [hb, List.lookup_cons, this]
    · rw [List.filter_cons_of_pos (by simpa using hk)]
      by_cases hb : b = k
      · subst hb
        simp [List.lookup_cons, hk]
      · have : (b == k) = false := by simpa using hb
        simp only [List.lookup_cons, this]
        exact ih

theorem Heap.block_release (h : Heap) (a b : Addr) :
    (h.release a).block b = if b = a then none else h.block b := by
  simp only [Heap.release, Heap.block, Heap.lookup_filter_ne]
  by_cases hb0 : b = nullptr <;> by_cases hb : b = a <;> simp [hb0, hb]

theorem Heap.lookup_store (cells : List (Addr × Block)) (a b : Addr) (o : Obj) :
    (cells.map (fun c => if c.1 == a then (c.1, ⟨c.2.source, o⟩) else c)).lookup b =
      (cells.lookup b).map (fun blk => if b = a then ⟨blk.source, o⟩ else blk) := by
  induction cells with
  | nil => simp
  | cons d ds ih =>
    obtain ⟨k, v⟩ := d
    simp only [List.map_cons]
    by_cases hk : k = a
    · subst hk
      simp only [beq_self_eq_true, if_true, List.lookup_cons]
      by_cases hb : b = k
      · subst hb
        simp
      · have hbk : (b == k) = false := by simpa using hb
        simp only [hbk]
        exact ih
    · have hka : (k == a) = false := by simpa using hk
      simp only [hka, Bool.false_eq_true, if_false, List.lookup_cons]
      by_cases hb : b = k
      · subst hb
        simp [hk]
      · have hbk : (b == k) = false := by simpa using hb
        simp only [hbk]
        exact ih

theorem Heap.block_store (h : Heap) (a b : Addr) (o : Obj) :
    (h.store a o).block b =
      (h.block b).map (fun blk => if b = a then ⟨blk.source, o⟩ else blk) := by
  simp only [Heap.store, Heap.block, Heap.lookup_store]
  by_cases hb0 : b = nullptr <;> simp [hb0]

theorem Heap.processorAt_store (h : Heap) (a : Addr) (p q : SentencePieceProcessor)
    (hp : h.processorAt a = some p) : (h.store a (.processor q)).processorAt a = some q := by
  simp only [Heap.processorAt, Heap.block_store] at hp ⊢
  cases hb : h.block a with
  | none => simp [hb] at hp
  | some blk => simp

theorem Heap.processorAt_alloc_self (h : Heap) (k : Allocator) (p : SentencePieceProcessor) :
    (h.alloc k (.processor p)).2.processorAt (h.alloc k (.processor p)).1 = some p := by
  simp only [Heap.processorAt, Heap.block_alloc]
  simp [Heap.alloc]

theorem Heap.processorAt_block (h : Heap) (a : Addr) (p : SentencePieceProcessor)
    (hp : h.processorAt a = some p) : ∃ k, h.block a = some ⟨k, .processor p⟩ := by
  simp only [Heap.processorAt] at hp
  split at hp
  · next k q hq =>
    refine ⟨k, ?_⟩
    cases hp
    exact hq
  · cases hp

theorem sentencepieceInit_block (ctor : SentencePieceProcessor) (h : Heap) :
    (sentencepieceInit ctor h).2.block (sentencepieceInit ctor h).1 =
      some ⟨.operatorNew, .processor ctor⟩ := by
  rw [sentencepieceInit, Heap.block_alloc]
  simp [Heap.alloc]

/-! ## The handle: creation, destruction, readiness -/

/-- C1: for a handle that addresses a live processor, `checkModelLoaded` returns 1 when
the processor's status code is `kOk` and 0 for every other status code; and whatever
the handle, a value it returns is 0 or 1. -/
theorem checkModelLoaded_flag (h : Heap) (processorhandle : Addr)
    (processor : SentencePieceProcessor)
    (hp : h.processorAt processorhandle = some processor) :
    (processor.status.code = StatusCode.kOk →
      checkModelLoaded h processorhandle = .ret (1, h)) ∧
    (processor.status.code ≠ StatusCode.kOk →
      checkModelLoaded h processorhandle = .ret (0, h)) ∧
    (∀ (g : Heap) (a : Addr) (v : Int) (g' : Heap),
      checkModelLoaded g a = .ret (v, g') → v = 0 ∨ v = 1) := by
  refine ⟨fun hok => ?_, fun hne => ?_, fun g a v g' hr => ?_⟩
  · simp [checkModelLoaded, hp, hok]
  · simp [checkModelLoaded, hp, hne]
  · simp only [checkModelLoaded] at hr
    split at hr
    · cases hr
    · split at hr
      · cases hr
        exact Or.inr rfl
      · cases hr
        exact Or.inl rfl

theorem checkModelLoaded_flag_witness :
    sampleHeap.processorAt 1 = some sampleProcessor ∧
      checkModelLoaded sampleHeap 1 = .ret (1, sampleHeap) :=
  ⟨rfl, (checkModelLoaded_flag sampleHeap 1 sampleProcessor rfl).1 rfl⟩

/-- C7: `sentencepieceInit` returns a non-null handle; the handle addresses no block
that was live before the call, so it differs from every live handle; after the call
it addresses a processor in the state the constructor leaves, allocated by `new`; and
every other address holds what it held before. -/
theorem sentencepieceInit_handle (ctor : SentencePieceProcessor) (h : Heap) :
    (sentencepieceInit ctor h).1 ≠ nullptr ∧
    h.block (sentencepieceInit ctor h).1 = none ∧
    (∀ (a : Addr) (p : SentencePieceProcessor),
      h.processorAt a = some p → (sentencepieceInit ctor h).1 ≠ a) ∧
    (sentencepieceInit ctor h).2.block (sentencepieceInit ctor h).1 =
      some ⟨.operatorNew, .processor ctor⟩ ∧
    (sentencepieceInit ctor h).2.processorAt (sentencepieceInit ctor h).1 = some ctor ∧
    (∀ a : Addr, a ≠ (sentencepieceInit ctor h).1 →
      (sentencepieceInit ctor h).2.block a = h.block a) := by
  refine ⟨h.fresh_ne_null, h.block_fresh, fun a p hp e => ?_, ?_, ?_, fun a ha => ?_⟩
  · obtain ⟨k, hk⟩ := h.processorAt_block a p hp
    have hfree : h.block a = none := by
      rw [← e]
      exact h.block_fresh
    rw [hfree] at hk
    cases hk
  · rw [sentencepieceInit, Heap.block_alloc]
    simp [Heap.alloc]
  · exact h.processorAt_alloc_self _ _
  · rw [sentencepieceInit, Heap.block_alloc]
    have : ¬ a = h.fresh := ha
    simp [this]

theorem sentencepieceInit_handle_witness :
    (sentencepieceInit sampleProcessor sampleHeap).1 = 2 ∧
      (sentencepieceInit sampleProcessor sampleHeap).1 ≠ nullptr ∧
      sampleHeap.block (sentencepieceInit sampleProcessor sampleHeap).1 = none :=
  ⟨rfl, (sentencepieceInit_handle sampleProcessor sampleHeap).1,
    (sentencepieceInit_handle sampleProcessor sampleHeap).2.1⟩

/-- C8: `sentencepieceDestroy` on a handle that addresses a live processor created by
`new` returns, leaves no block at the handle and leaves every other address as it was;
`sentencepieceInit` followed by `sentencepieceDestroy` of the handle it returned gives
back the heap it started from; and `sentencepieceDestroy` of the null pointer returns
the heap unchanged. -/
theorem sentencepieceDestroy_live (h : Heap) (processorhandle : Addr)
    (processor : SentencePieceProcessor)
    (hp : h.block processorhandle = some ⟨.operatorNew, .processor processor⟩) :
    (∃ h' : Heap, sentencepieceDestroy h processorhandle = .ret h' ∧
      h'.block processorhandle = none ∧
      ∀ b : Addr, b ≠ processorhandle → h'.block b = h.block b) ∧
    (∀ (ctor : SentencePieceProcessor) (g : Heap),
      sentencepieceDestroy (sentencepieceInit ctor g).2 (sentencepieceInit ctor g).1 = .ret g) ∧
    (∀ g : Heap, sentencepieceDestroy g nullptr = .ret g) := by
  refine ⟨⟨h.release processorhandle, ?_, ?_, fun b hb => ?_⟩, fun ctor g => ?_, fun g => ?_⟩
  · have hne : processorhandle ≠ nullptr := by
      intro e
      simp [Heap.block, e] at hp
    simp [sentencepieceDestroy, hne, hp]
  · simp [Heap.block_release]
  · simp [Heap.block_release, hb]
  · have hb := (sentencepieceInit_block ctor g)
    simp only [sentencepieceDestroy, if_neg (g.fresh_ne_null), sentencepieceInit] at hb ⊢
    rw [show (g.alloc .operatorNew (.processor ctor)).1 = g.fresh from rfl] at hb ⊢
    rw [hb]
    simp only
    exact congrArg Outcome.ret (g.release_alloc .operatorNew (.processor ctor))
  · simp [sentencepieceDestroy]

theorem sentencepieceDestroy_live_witness :
    sampleHeap.block 1 = some ⟨.operatorNew, .processor sampleProcessor⟩ ∧
      (∃ h' : Heap, sentencepieceDestroy sampleHeap 1 = .ret h' ∧ h'.block 1 = none ∧
        ∀ b : Addr, b ≠ 1 → h'.block b = sampleHeap.block b) ∧
      sentencepieceDestroy sampleHeap nullptr = .ret sampleHeap :=
  ⟨rfl, (sentencepieceDestroy_live sampleHeap 1 sampleProcessor rfl).1,
    (sentencepieceDestroy_live sampleHeap 1 sampleProcessor rfl).2.2 sampleHeap⟩

/-! ## Loading -/

theorem loadModelFile_eq (Load : SentencePieceProcessor → String → Except StatusCode SentencePieceProcessor)
    (h : Heap) (a : Addr) (p : SentencePieceProcessor) (filename : String)
    (hp : h.processorAt a = some p) :
    loadModelFile Load h a filename =
      match Load p filename with
      | .ok q => .ret (h.store a (.processor { q with status := ⟨.kOk⟩ }))
      | .error _ => .abort := by
  simp only [loadModelFile, hp, SentencePieceProcessor.LoadOrDie]
  cases Load p filename <;> rfl

/-- C2: when `loadModelFile` returns normally, `checkModelLoaded` on the same handle in
the state it leaves returns 1; and on the handle `sentencepieceInit` has just
returned, with a processor on which no load has succeeded, `checkModelLoaded`
returns 0. -/
theorem checkModelLoaded_after_load
    (Load : SentencePieceProcessor → String → Except StatusCode SentencePieceProcessor)
    (h : Heap) (processorhandle : Addr) (filename : String) (h' : Heap)
    (hr : loadModelFile Load h processorhandle filename = .ret h') :
    checkModelLoaded h' processorhandle = .ret (1, h') ∧
    (∀ (code : Nat) (ids : String → List Int) (pieces : String → List String) (g : Heap),
      checkModelLoaded (sentencepieceInit (.unloaded code ids pieces) g).2
          (sentencepieceInit (.unloaded code ids pieces) g).1 =
        .ret (0, (sentencepieceInit (.unloaded code ids pieces) g).2)) := by
  constructor
  · cases hp : h.processorAt processorhandle with
    | none => simp [loadModelFile, hp] at hr
    | some p =>
      rw [loadModelFile_eq Load h processorhandle p filename hp] at hr
      cases hl : Load p filename with
      | error e => simp [hl] at hr
      | ok q =>
        simp only [hl, Outcome.ret.injEq] at hr
        subst hr
        simp [checkModelLoaded, Heap.processorAt_store h processorhandle p _ hp]
  · intro code ids pieces g
    simp only [checkModelLoaded, sentencepieceInit, Heap.processorAt_alloc_self]
    simp [SentencePieceProcessor.unloaded]

theorem checkModelLoaded_after_load_witness :
    loadModelFile sampleLoad sampleHeap 1 "m.model" =
        .ret (sampleHeap.store 1 (.processor { sampleProcessor with status := ⟨.kOk⟩ })) ∧
      checkModelLoaded (sampleHeap.store 1 (.processor { sampleProcessor with status := ⟨.kOk⟩ })) 1 =
        .ret (1, sampleHeap.store 1 (.processor { sampleProcessor with status := ⟨.kOk⟩ })) :=
  ⟨rfl, (checkModelLoaded_after_load sampleLoad sampleHeap 1 "m.model" _ rfl).1⟩

/-- C3: on a handle that addresses a live processor, `loadModelFile` terminates the
process when the underlying load fails; when the underlying load succeeds it returns
normally, the handle then addresses the loaded processor with status `kOk`, and every
other address holds what it held before; it returns normally only when the underlying
load succeeded.  A normal return carries the new state and no value. -/
theorem loadModelFile_abort_or_loaded
    (Load : SentencePieceProcessor → String → Except StatusCode SentencePieceProcessor)
    (h : Heap) (processorhandle : Addr) (processor : SentencePieceProcessor) (filename : String)
    (hp : h.processorAt processorhandle = some processor) :
    (∀ e : StatusCode, Load processor filename = .error e →
      loadModelFile Load h processorhandle filename = .abort) ∧
    (∀ q : SentencePieceProcessor, Load processor filename = .ok q →
      ∃ h' : Heap, loadModelFile Load h processorhandle filename = .ret h' ∧
        h'.processorAt processorhandle = some { q with status := ⟨.kOk⟩ } ∧
        ∀ b : Addr, b ≠ processorhandle → h'.block b = h.block b) ∧
    (∀ h' : Heap, loadModelFile Load h processorhandle filename = .ret h' →
      ∃ q : SentencePieceProcessor, Load processor filename = .ok q) := by
  rw [loadModelFile_eq Load h processorhandle processor filename hp]
  refine ⟨fun e he => ?_, fun q hq => ?_, fun h' hr => ?_⟩
  · simp [he]
  · refine ⟨_, by simp [hq], Heap.processorAt_store h processorhandle processor _ hp, ?_⟩
    intro b hb
    rw [Heap.block_store]
    cases h.block b <;> simp [hb]
  · cases hl : Load processor filename with
    | error e => simp [hl] at hr
    | ok q => exact ⟨q, rfl⟩

theorem loadModelFile_abort_or_loaded_witness :
    sampleHeap.processorAt 1 = some sampleProcessor ∧
      loadModelFile failingLoad sampleHeap 1 "m.model" = .abort :=
  ⟨rfl, (loadModelFile_abort_or_loaded failingLoad sampleHeap 1 sampleProcessor "m.model" rfl).1
    (.other 5) rfl⟩

/-! ## Encoding as ids -/

theorem toInt_of_lt (n : Nat) (hn : n < 2 ^ 31) : toInt n = (n : Int) := by
  have h1 : n % 2 ^ 32 = n := Nat.mod_eq_of_lt (by omega)
  simp only [toInt, h1, if_pos hn]

theorem toInt_lt (n : Nat) : toInt n < 2 ^ 31 := by
  have hm : n % 2 ^ 32 < 2 ^ 32 := Nat.mod_lt _ (by norm_num)
  unfold toInt
  split
  · next hlt => exact_mod_cast hlt
  · omega

theorem toInt_ne_of_ge (n : Nat) (hn : 2 ^ 31 ≤ n) : toInt n ≠ (n : Int) := by
  have := toInt_lt n
  intro e
  rw [e] at this
  have : n < 2 ^ 31 := by exact_mod_cast this
  omega

theorem StdVector.ofList_nil {α : Type} (wrap : List α → Obj) (h : Heap) :
    StdVector.ofList wrap h [] = (⟨nullptr, []⟩, h) := rfl

theorem StdVector.ofList_ne_nil {α : Type} (wrap : List α → Obj) (h : Heap) (xs : List α)
    (hne : xs ≠ []) :
    StdVector.ofList wrap h xs =
      (⟨h.fresh, xs⟩, ⟨(h.fresh, ⟨.operatorNew, wrap xs⟩) :: h.cells⟩) := by
  cases xs with
  | nil => exact absurd rfl hne
  | cons x xs => rfl

theorem StdVector.elems_ofList {α : Type} (wrap : List α → Obj) (h : Heap) (xs : List α) :
    (StdVector.ofList wrap h xs).1.elems = xs := by
  cases xs <;> rfl

theorem StdVector.deallocate_ofList {α : Type} (wrap : List α → Obj) (h : Heap) (xs : List α) :
    (StdVector.ofList wrap h xs).1.deallocate (StdVector.ofList wrap h xs).2 = h := by
  cases xs with
  | nil => rfl
  | cons x xs =>
    rw [StdVector.ofList_ne_nil wrap h (x :: xs) (List.cons_ne_nil _ _)]
    simp only [StdVector.deallocate, if_neg h.fresh_ne_null]
    exact h.release_alloc .operatorNew (wrap (x :: xs))

theorem encodeAsIdsBody_eq (h : Heap) (a : Addr) (p : SentencePieceProcessor) (input : String)
    (hp : h.processorAt a = some p) :
    encodeAsIdsBody h a input =
      .ret (createInt32Array (StdVector.ofList Obj.ints h (p.EncodeAsIds input)).1.data
              (toInt (p.EncodeAsIds input).length),
            (StdVector.ofList Obj.ints h (p.EncodeAsIds input)).1,
            (StdVector.ofList Obj.ints h (p.EncodeAsIds input)).2) := by
  simp only [encodeAsIdsBody, hp, StdVector.size, StdVector.elems_ofList]

theorem encodeAsIds_eq (h : Heap) (a : Addr) (p : SentencePieceProcessor) (input : String)
    (hp : h.processorAt a = some p) :
    encodeAsIds h a input =
      .ret (createInt32Array (StdVector.ofList Obj.ints h (p.EncodeAsIds input)).1.data
              (toInt (p.EncodeAsIds input).length), h) := by
  simp only [encodeAsIds, encodeAsIdsBody_eq h a p input hp, StdVector.deallocate_ofList]

/-- C4, as stated, fails: for a processor whose `EncodeAsIds` produces `2^31` ids the
`len` of the struct `encodeAsIds` returns is not the number of ids. -/
theorem encodeAsIds_as_stated_fails :
    ¬ ∃ (r : Int32Array) (h' : Heap), encodeAsIds bigHeap 1 "x" = .ret (r, h') ∧
        r.len = ((bigProcessor.EncodeAsIds "x").length : Int) := by
  rintro ⟨r, h', hr, hlen⟩
  rw [encodeAsIds_eq bigHeap 1 bigProcessor "x" rfl] at hr
  cases hr
  have hl : (bigProcessor.EncodeAsIds "x").length = 2 ^ 31 := List.length_replicate _ _
  rw [hl] at hlen
  exact toInt_ne_of_ge (2 ^ 31) (le_refl _) (by simpa [createInt32Array] using hlen)

/-- C4, amended: on a handle that addresses a live processor, for an input that
`EncodeAsIds` encodes to at most `2^31 - 1` ids, `encodeAsIds` returns an `Int32Array`
whose `len` is the number of ids (0 when there are none).  `createInt32Array` stores
its two arguments unchanged. -/
theorem encodeAsIds_struct (h : Heap) (processorhandle : Addr)
    (processor : SentencePieceProcessor) (input : String)
    (hp : h.processorAt processorhandle = some processor)
    (hn : (processor.EncodeAsIds input).length ≤ 2 ^ 31 - 1) :
    (∃ (r : Int32Array) (h' : Heap),
      encodeAsIds h processorhandle input = .ret (r, h') ∧
      r.len = ((processor.EncodeAsIds input).length : Int) ∧
      (processor.EncodeAsIds input = [] → r.len = 0)) ∧
    (∀ (arr : Addr) (len : Int),
      (createInt32Array arr len).data = arr ∧ (createInt32Array arr len).len = len) := by
  refine ⟨⟨_, _, encodeAsIds_eq h processorhandle processor input hp, ?_, ?_⟩,
    fun arr len => ⟨rfl, rfl⟩⟩
  · exact toInt_of_lt _ (by omega)
  · intro he
    simp [createInt32Array, he, toInt]

theorem encodeAsIds_struct_witness :
    sampleHeap.processorAt 1 = some sampleProcessor ∧
      (sampleProcessor.EncodeAsIds "x").length ≤ 2 ^ 31 - 1 ∧
      ∃ (r : Int32Array) (h' : Heap),
        encodeAsIds sampleHeap 1 "x" = .ret (r, h') ∧
        r.len = ((sampleProcessor.EncodeAsIds "x").length : Int) ∧
        (sampleProcessor.EncodeAsIds "x" = [] → r.len = 0) :=
  ⟨rfl, by decide, (encodeAsIds_struct sampleHeap 1 sampleProcessor "x" rfl (by decide)).1⟩

/-- C5, evaluated at the sample state: inside `encodeAsIds` the ids are in a block at
address 2 that `operator new` handed out; the call returns `data = 2` and the heap it
leaves has no block at address 2; and `free_int_array` on that pointer is undefined,
in the heap the call leaves as well as in the heap at the `return` statement. -/
theorem encodeAsIds_buffer_released :
    encodeAsIdsBody sampleHeap 1 "x" =
        .ret (⟨2, 3⟩, ⟨2, [5, 6, 7]⟩,
          ⟨(2, ⟨.operatorNew, .ints [5, 6, 7]⟩) :: sampleHeap.cells⟩) ∧
      encodeAsIds sampleHeap 1 "x" = .ret (⟨2, 3⟩, sampleHeap) ∧
      sampleHeap.block 2 = none ∧
      sampleHeap.readInt 2 0 = none ∧
      free_int_array sampleHeap 2 = .undefined ∧
      free_int_array ⟨(2, ⟨.operatorNew, .ints [5, 6, 7]⟩) :: sampleHeap.cells⟩ 2 = .undefined :=
  ⟨rfl, rfl, rfl, rfl, rfl, rfl⟩

/-! ## Encoding as pieces -/

theorem Heap.release_comm (h : Heap) (a b : Addr) :
    (h.release a).release b = (h.release b).release a := by
  simp only [Heap.release, List.filter_filter]
  congr 1
  apply List.filter_congr
  intro c _
  exact Bool.and_comm _ _

theorem Heap.top_cons_above (h1 : Heap) (d : Addr) (b : Block) (hd : h1.top < d) :
    Heap.top ⟨(d, b) :: h1.cells⟩ = d := by
  simp only [Heap.top, List.map_cons, List.foldr_cons]
  exact max_eq_left (Nat.le_of_lt hd)

theorem Heap.release_cons_above (h1 : Heap) (d : Addr) (b : Block) (hd : h1.top < d) :
    Heap.release ⟨(d, b) :: h1.cells⟩ d = h1 := by
  rw [Heap.release_cons_self]
  exact h1.release_above d hd

theorem Heap.release_cons_ne (a b : Addr) (blk : Block) (cells : List (Addr × Block))
    (hne : b ≠ a) :
    Heap.release ⟨(b, blk) :: cells⟩ a = ⟨(b, blk) :: (Heap.release ⟨cells⟩ a).cells⟩ := by
  simp [Heap.release, hne]

theorem destroyStrings_release (strs : List StdString) (h : Heap) (a : Addr) :
    destroyStrings strs (h.release a) = (destroyStrings strs h).release a := by
  induction strs generalizing h with
  | nil => rfl
  | cons s rest ih =>
    simp only [destroyStrings]
    rw [Heap.release_comm, ih]

theorem destroyStrings_stringsOf (h : Heap) (pieces : List String) :
    destroyStrings (stringsOf h pieces).1 (stringsOf h pieces).2 = h := by
  induction pieces generalizing h with
  | nil => rfl
  | cons s rest ih =>
    simp only [stringsOf, destroyStrings, StdString.ofString]
    rw [destroyStrings_release, ih]
    exact h.release_alloc .operatorNew (.chars (utf8Bytes s ++ [0]))

theorem stringsOf_bytes (h : Heap) (pieces : List String) :
    (stringsOf h pieces).1.map StdString.bytes = pieces.map utf8Bytes := by
  induction pieces generalizing h with
  | nil => rfl
  | cons s rest ih =>
    simp only [stringsOf, StdString.ofString, List.map_cons]
    rw [ih]

theorem push_back_bufferOver (h1 : Heap) (st : StdVector Addr × Heap) (x : Addr)
    (hst : BufferOver h1 st) :
    BufferOver h1 (StdVector.push_back Obj.ptrs st.1 st.2 x) := by
  obtain ⟨⟨d, es⟩, g⟩ := st
  right
  rcases hst with ⟨hd, he, hg⟩ | ⟨hd, hg⟩
  · simp only at hd he hg
    subst hd he hg
    simp only [StdVector.push_back, StdVector.deallocate, Heap.alloc, if_true]
    exact ⟨Nat.lt_succ_self _, trivial⟩
  · simp only at hd hg
    subst hg
    have hdn : d ≠ nullptr := fun e => by
      rw [e] at hd
      exact Nat.not_lt_zero _ hd
    have htop := Heap.top_cons_above h1 d ⟨.operatorNew, .ptrs es⟩ hd
    simp only [StdVector.push_back, StdVector.deallocate, Heap.alloc, Heap.fresh, htop, if_neg hdn]
    refine ⟨Nat.lt_succ_of_lt hd, ?_⟩
    rw [Heap.release_cons_ne _ _ _ _ (Nat.succ_ne_self d),
      Heap.release_cons_above h1 d ⟨.operatorNew, .ptrs es⟩ hd]

theorem pushFronts_some (h1 : Heap) (strs : List StdString) (st st' : StdVector Addr × Heap)
    (hst : BufferOver h1 st) (hr : pushFronts strs st = some st') :
    BufferOver h1 st' ∧ st'.1.elems = st.1.elems ++ strs.map StdString.data := by
  induction strs generalizing st with
  | nil =>
    simp only [pushFronts, Option.some.injEq] at hr
    subst hr
    exact ⟨hst, by simp⟩
  | cons s rest ih =>
    simp only [pushFronts] at hr
    cases hf : s.frontAddr with
    | none => simp [hf] at hr
    | some q =>
      simp only [hf] at hr
      have hq : q = s.data := by
        simp only [StdString.frontAddr] at hf
        split at hf
        · cases hf
        · cases hf
          rfl
      obtain ⟨hb, he⟩ := ih _ (push_back_bufferOver h1 st q hst) hr
      refine ⟨hb, ?_⟩
      rw [he, hq]
      simp [StdVector.push_back]

theorem pushFronts_isSome (strs : List StdString) (st : StdVector Addr × Heap)
    (hne : ∀ s ∈ strs, s.bytes ≠ []) : ∃ st', pushFronts strs st = some st' := by
  induction strs generalizing st with
  | nil => exact ⟨st, rfl⟩
  | cons s rest ih =>
    have hs : s.bytes ≠ [] := hne s (List.mem_cons_self _ _)
    have hf : s.frontAddr = some s.data := by
      simp [StdString.frontAddr, hs]
    simp only [pushFronts, hf]
    exact ih _ (fun t ht => hne t (List.mem_cons_of_mem _ ht))

theorem BufferOver.deallocate (h1 : Heap) (st : StdVector Addr × Heap) (hst : BufferOver h1 st) :
    st.1.deallocate st.2 = h1 := by
  rcases hst with ⟨hd, _, hg⟩ | ⟨hd, hg⟩
  · simp [StdVector.deallocate, hd, hg]
  · have hdn : st.1.data ≠ nullptr := fun e => by
      rw [e] at hd
      exact Nat.not_lt_zero _ hd
    simp only [StdVector.deallocate, if_neg hdn]
    rw [hg]
    exact Heap.release_cons_above h1 _ _ hd

theorem destroyVectorOfStrings_vectorOfStrings (h : Heap) (pieces : List String) :
    destroyVectorOfStrings (vectorOfStrings h pieces).1 (vectorOfStrings h pieces).2 = h := by
  simp only [destroyVectorOfStrings, vectorOfStrings, StdVector.elems_ofList]
  cases hs : (stringsOf h pieces).1 with
  | nil =>
    have := destroyStrings_stringsOf h pieces
    rw [hs] at this
    simpa [StdVector.ofList_nil, StdVector.deallocate, destroyStrings] using this
  | cons t ts =>
    rw [StdVector.ofList_ne_nil _ _ _ (List.cons_ne_nil _ _)]
    simp only [StdVector.deallocate, if_neg (Heap.fresh_ne_null _)]
    rw [← destroyStrings_release]
    have hrel := (stringsOf h pieces).2.release_alloc .operatorNew
      (.strings ((t :: ts).map StdString.data))
    simp only [Heap.alloc] at hrel
    rw [hrel, ← hs]
    exact destroyStrings_stringsOf h pieces

theorem vectorOfStrings_elems (h : Heap) (pieces : List String) :
    (vectorOfStrings h pieces).1.elems = (stringsOf h pieces).1 := by
  simp only [vectorOfStrings, StdVector.elems_ofList]

theorem stringsOf_length (h : Heap) (pieces : List String) :
    (stringsOf h pieces).1.length = pieces.length := by
  have := congrArg List.length (stringsOf_bytes h pieces)
  simpa using this

theorem bufferOver_empty (h1 : Heap) : BufferOver h1 (StdVector.empty, h1) :=
  Or.inl ⟨rfl, rfl, rfl⟩

theorem encodeAsPieces_of_push (h : Heap) (a : Addr) (p : SentencePieceProcessor)
    (input : String) (hp : h.processorAt a = some p) (st' : StdVector Addr × Heap)
    (hpush : pushFronts (vectorOfStrings h (p.EncodeAsPieces input)).1.elems
      (StdVector.empty, (vectorOfStrings h (p.EncodeAsPieces input)).2) = some st') :
    BufferOver (vectorOfStrings h (p.EncodeAsPieces input)).2 st' ∧
    st'.1.elems = (stringsOf h (p.EncodeAsPieces input)).1.map StdString.data ∧
    st'.1.size = (p.EncodeAsPieces input).length ∧
    encodeAsPiecesBody h a input =
      .ret (createStringArray st'.1.data (toInt (p.EncodeAsPieces input).length),
        (vectorOfStrings h (p.EncodeAsPieces input)).1, st'.1, st'.2) ∧
    encodeAsPieces h a input =
      .ret (createStringArray st'.1.data (toInt (p.EncodeAsPieces input).length), h) := by
  obtain ⟨hb, he⟩ := pushFronts_some _ _ _ _ (bufferOver_empty _) hpush
  have he' : st'.1.elems = (stringsOf h (p.EncodeAsPieces input)).1.map StdString.data := by
    rw [he, vectorOfStrings_elems]
    simp [StdVector.empty]
  have hsize : st'.1.size = (p.EncodeAsPieces input).length := by
    simp only [StdVector.size, he', List.length_map, stringsOf_length]
  have hbody : encodeAsPiecesBody h a input =
      .ret (createStringArray st'.1.data (toInt (p.EncodeAsPieces input).length),
        (vectorOfStrings h (p.EncodeAsPieces input)).1, st'.1, st'.2) := by
    simp only [encodeAsPiecesBody, hp, hpush, hsize]
  refine ⟨hb, he', hsize, hbody, ?_⟩
  simp only [encodeAsPieces, hbody, hb.deallocate, destroyVectorOfStrings_vectorOfStrings]

theorem encodeAsPieces_ret_inv (h : Heap) (a : Addr) (p : SentencePieceProcessor)
    (input : String) (hp : h.processorAt a = some p) (r : StringArray) (h' : Heap)
    (hr : encodeAsPieces h a input = .ret (r, h')) :
    ∃ st', pushFronts (vectorOfStrings h (p.EncodeAsPieces input)).1.elems
      (StdVector.empty, (vectorOfStrings h (p.EncodeAsPieces input)).2) = some st' := by
  cases hpush : pushFronts (vectorOfStrings h (p.EncodeAsPieces input)).1.elems
      (StdVector.empty, (vectorOfStrings h (p.EncodeAsPieces input)).2) with
  | some st' => exact ⟨st', rfl⟩
  | none =>
    simp [encodeAsPieces, encodeAsPiecesBody, hp, hpush] at hr

theorem utf8Bytes_ne_nil (s : String) (hs : s ≠ "") : utf8Bytes s ≠ [] := by
  obtain ⟨cs⟩ := s
  cases cs with
  | nil => exact absurd rfl hs
  | cons c cs =>
    intro e
    have hlen := congrArg List.length e
    have hpos := Char.utf8Size_pos c
    simp only [utf8Bytes, List.flatMap_cons, List.map_append, List.length_append,
      List.length_map, String.length_utf8EncodeChar, List.length_nil] at hlen
    omega

theorem stringsOf_bytes_ne_nil (h : Heap) (pieces : List String)
    (hne : ∀ s ∈ pieces, s ≠ "") : ∀ t ∈ (stringsOf h pieces).1, t.bytes ≠ [] := by
  intro t ht e
  have hm : t.bytes ∈ (stringsOf h pieces).1.map StdString.bytes := List.mem_map_of_mem _ ht
  rw [stringsOf_bytes] at hm
  obtain ⟨s, hs, hst⟩ := List.mem_map.mp hm
  exact utf8Bytes_ne_nil s (hne s hs) (hst.trans e)

theorem encodeAsPieces_push_isSome (h : Heap) (p : SentencePieceProcessor) (input : String)
    (hne : ∀ s ∈ p.EncodeAsPieces input, s ≠ "") :
    ∃ st', pushFronts (vectorOfStrings h (p.EncodeAsPieces input)).1.elems
      (StdVector.empty, (vectorOfStrings h (p.EncodeAsPieces input)).2) = some st' := by
  apply pushFronts_isSome
  rw [vectorOfStrings_elems]
  exact stringsOf_bytes_ne_nil h _ hne

theorem replicate_a_ne_empty (n : Nat) : ∀ s ∈ List.replicate n "a", s ≠ "" := by
  intro s hs
  rw [List.eq_of_mem_replicate hs]
  decide

/-- C6, as stated, fails: for a processor whose `EncodeAsPieces` produces `2^31`
non-empty pieces the `size` of the struct `encodeAsPieces` returns is not the number
of pieces. -/
theorem encodeAsPieces_as_stated_fails :
    ¬ ∃ (r : StringArray) (h' : Heap), encodeAsPieces bigHeap 1 "x" = .ret (r, h') ∧
        r.size = ((bigProcessor.EncodeAsPieces "x").length : Int) := by
  rintro ⟨r, h', hr, hsize⟩
  obtain ⟨st', hpush⟩ := encodeAsPieces_push_isSome bigHeap bigProcessor "x"
    (replicate_a_ne_empty _)
  rw [(encodeAsPieces_of_push bigHeap 1 bigProcessor "x" rfl st' hpush).2.2.2.2] at hr
  cases hr
  have hl : (bigProcessor.EncodeAsPieces "x").length = 2 ^ 31 := List.length_replicate _ _
  rw [hl] at hsize
  exact toInt_ne_of_ge (2 ^ 31) (le_refl _) (by simpa [createStringArray] using hsize)

/-- C6, amended: on a handle that addresses a live processor, for an input that
`EncodeAsPieces` encodes to at most `2^31 - 1` pieces, all of them non-empty,
`encodeAsPieces` returns a `StringArray` whose `size` is the number of pieces.
`createStringArray` stores its two arguments unchanged. -/
theorem encodeAsPieces_struct (h : Heap) (processorhandle : Addr)
    (processor : SentencePieceProcessor) (input : String)
    (hp : h.processorAt processorhandle = some processor)
    (hne : ∀ s ∈ processor.EncodeAsPieces input, s ≠ "")
    (hn : (processor.EncodeAsPieces input).length ≤ 2 ^ 31 - 1) :
    (∃ (r : StringArray) (h' : Heap),
      encodeAsPieces h processorhandle input = .ret (r, h') ∧
      r.size = ((processor.EncodeAsPieces input).length : Int)) ∧
    (∀ (cstring : Addr) (len : Int),
      (createStringArray cstring len).data = cstring ∧
        (createStringArray cstring len).size = len) := by
  obtain ⟨st', hpush⟩ := encodeAsPieces_push_isSome h processor input hne
  refine ⟨⟨_, _,
    (encodeAsPieces_of_push h processorhandle processor input hp st' hpush).2.2.2.2, ?_⟩,
    fun cstring len => ⟨rfl, rfl⟩⟩
  exact toInt_of_lt _ (by omega)

theorem encodeAsPieces_struct_witness :
    sampleHeap.processorAt 1 = some sampleProcessor ∧
      (∀ s ∈ sampleProcessor.EncodeAsPieces "x", s ≠ "") ∧
      (sampleProcessor.EncodeAsPieces "x").length ≤ 2 ^ 31 - 1 ∧
      ∃ (r : StringArray) (h' : Heap),
        encodeAsPieces sampleHeap 1 "x" = .ret (r, h') ∧
        r.size = ((sampleProcessor.EncodeAsPieces "x").length : Int) :=
  ⟨rfl, by decide, by decide,
    (encodeAsPieces_struct sampleHeap 1 sampleProcessor "x" rfl (by decide) (by decide)).1⟩

/-! ## Statelessness and the narrowing of the count -/

theorem toInt_eq (n : Nat) :
    toInt n = ((n % 2 ^ 32 : Nat) : Int) - (if n % 2 ^ 32 < 2 ^ 31 then 0 else 2 ^ 32) := by
  unfold toInt
  split <;> simp

theorem toInt_nonneg_of_lt (n : Nat) (hn : n < 2 ^ 31) : 0 ≤ toInt n := by
  rw [toInt_of_lt n hn]
  exact Int.ofNat_nonneg n

/-- C9: on a handle that addresses a live processor, `checkModelLoaded` and
`encodeAsIds` return and leave the heap, and with it the processor, exactly as it was;
`encodeAsPieces` leaves the heap exactly as it was whenever it returns, and it returns
when every piece is non-empty.  So a second call of the same operation with the same
input, made in the state the first call leaves, returns what the first returned: the
same flag, the same struct, and at the `return` statement the same local vectors with
the same elements. -/
theorem stateless_forwarding (h : Heap) (processorhandle : Addr)
    (processor : SentencePieceProcessor) (input : String)
    (hp : h.processorAt processorhandle = some processor) :
    (∃ flag : Int, checkModelLoaded h processorhandle = .ret (flag, h)) ∧
    (∃ r : Int32Array, encodeAsIds h processorhandle input = .ret (r, h)) ∧
    (∀ (r : StringArray) (h' : Heap),
      encodeAsPieces h processorhandle input = .ret (r, h') → h' = h) ∧
    ((∀ s ∈ processor.EncodeAsPieces input, s ≠ "") →
      ∃ r : StringArray, encodeAsPieces h processorhandle input = .ret (r, h)) ∧
    (∀ (v1 v2 : Int) (h1 h2 : Heap), checkModelLoaded h processorhandle = .ret (v1, h1) →
      checkModelLoaded h1 processorhandle = .ret (v2, h2) →
      h1.processorAt processorhandle = some processor ∧ v2 = v1 ∧ h2 = h1) ∧
    (∀ (r1 r2 : Int32Array) (h1 h2 : Heap), encodeAsIds h processorhandle input = .ret (r1, h1) →
      encodeAsIds h1 processorhandle input = .ret (r2, h2) →
      h1.processorAt processorhandle = some processor ∧ r2 = r1 ∧ h2 = h1 ∧
        encodeAsIdsBody h1 processorhandle input = encodeAsIdsBody h processorhandle input) ∧
    (∀ (r1 r2 : StringArray) (h1 h2 : Heap),
      encodeAsPieces h processorhandle input = .ret (r1, h1) →
      encodeAsPieces h1 processorhandle input = .ret (r2, h2) →
      h1.processorAt processorhandle = some processor ∧ r2 = r1 ∧ h2 = h1 ∧
        encodeAsPiecesBody h1 processorhandle input =
          encodeAsPiecesBody h processorhandle input) := by
  have hcheck : ∃ flag : Int, checkModelLoaded h processorhandle = .ret (flag, h) := by
    by_cases hok : processor.status.code = StatusCode.kOk
    · exact ⟨1, by simp [checkModelLoaded, hp, hok]⟩
    · exact ⟨0, by simp [checkModelLoaded, hp, hok]⟩
  have hids := encodeAsIds_eq h processorhandle processor input hp
  have hpieces : ∀ (r : StringArray) (h' : Heap),
      encodeAsPieces h processorhandle input = .ret (r, h') → h' = h := by
    intro r h' hr
    obtain ⟨st', hpush⟩ := encodeAsPieces_ret_inv h processorhandle processor input hp r h' hr
    rw [(encodeAsPieces_of_push h processorhandle processor input hp st' hpush).2.2.2.2] at hr
    cases hr
    rfl
  refine ⟨hcheck, ⟨_, hids⟩, hpieces, fun hne => ?_, ?_, ?_, ?_⟩
  · obtain ⟨st', hpush⟩ := encodeAsPieces_push_isSome h processor input hne
    exact ⟨_, (encodeAsPieces_of_push h processorhandle processor input hp st' hpush).2.2.2.2⟩
  · intro v1 v2 h1 h2 e1 e2
    obtain ⟨flag, hf⟩ := hcheck
    rw [hf] at e1
    cases e1
    rw [hf] at e2
    cases e2
    exact ⟨hp, rfl, rfl⟩
  · intro r1 r2 h1 h2 e1 e2
    rw [hids] at e1
    cases e1
    rw [hids] at e2
    cases e2
    exact ⟨hp, rfl, rfl, rfl⟩
  · intro r1 r2 h1 h2 e1 e2
    have := hpieces r1 h1 e1
    subst this
    rw [e1] at e2
    cases e2
    exact ⟨hp, rfl, rfl, rfl⟩

theorem stateless_forwarding_witness :
    sampleHeap.processorAt 1 = some sampleProcessor ∧
      ∃ r : Int32Array, encodeAsIds sampleHeap 1 "x" = .ret (r, sampleHeap) :=
  ⟨rfl, (stateless_forwarding sampleHeap 1 sampleProcessor "x" rfl).2.1⟩

/-- C10: on a handle that addresses a live processor both encoders convert the element
count to a 32-bit `int`.  For a result of at most `2^31 - 1` elements the reported
`len` (`size`) is non-negative and equals the count; for a larger result it is the
count reduced modulo `2^32` and read as a signed 32-bit value, and it differs from the
count.  (For `encodeAsPieces` the pieces are taken to be non-empty.) -/
theorem count_narrowing (h : Heap) (processorhandle : Addr)
    (processor : SentencePieceProcessor) (input : String)
    (hp : h.processorAt processorhandle = some processor) :
    (∃ (r : Int32Array) (h' : Heap), encodeAsIds h processorhandle input = .ret (r, h') ∧
      ((processor.EncodeAsIds input).length ≤ 2 ^ 31 - 1 →
        0 ≤ r.len ∧ r.len = ((processor.EncodeAsIds input).length : Int)) ∧
      (2 ^ 31 - 1 < (processor.EncodeAsIds input).length →
        r.len = (((processor.EncodeAsIds input).length % 2 ^ 32 : Nat) : Int) -
            (if (processor.EncodeAsIds input).length % 2 ^ 32 < 2 ^ 31 then 0 else 2 ^ 32) ∧
          r.len ≠ ((processor.EncodeAsIds input).length : Int))) ∧
    ((∀ s ∈ processor.EncodeAsPieces input, s ≠ "") →
      ∃ (r : StringArray) (h' : Heap), encodeAsPieces h processorhandle input = .ret (r, h') ∧
        ((processor.EncodeAsPieces input).length ≤ 2 ^ 31 - 1 →
          0 ≤ r.size ∧ r.size = ((processor.EncodeAsPieces input).length : Int)) ∧
        (2 ^ 31 - 1 < (processor.EncodeAsPieces input).length →
          r.size = (((processor.EncodeAsPieces input).length % 2 ^ 32 : Nat) : Int) -
              (if (processor.EncodeAsPieces input).length % 2 ^ 32 < 2 ^ 31 then 0
                else 2 ^ 32) ∧
            r.size ≠ ((processor.EncodeAsPieces input).length : Int))) := by
  have key : ∀ n : Nat,
      (n ≤ 2 ^ 31 - 1 → 0 ≤ toInt n ∧ toInt n = (n : Int)) ∧
      (2 ^ 31 - 1 < n →
        toInt n = ((n % 2 ^ 32 : Nat) : Int) - (if n % 2 ^ 32 < 2 ^ 31 then 0 else 2 ^ 32) ∧
          toInt n ≠ (n : Int)) := by
    intro n
    refine ⟨fun hle => ?_, fun hgt => ?_⟩
    · have hlt : n < 2 ^ 31 := by omega
      exact ⟨toInt_nonneg_of_lt n hlt, toInt_of_lt n hlt⟩
    · exact ⟨toInt_eq n, toInt_ne_of_ge n (by omega)⟩
  refine ⟨⟨_, _, encodeAsIds_eq h processorhandle processor input hp, ?_⟩, fun hne => ?_⟩
  · exact key _
  · obtain ⟨st', hpush⟩ := encodeAsPieces_push_isSome h processor input hne
    exact ⟨_, _, (encodeAsPieces_of_push h processorhandle processor input hp st' hpush).2.2.2.2,
      key _⟩

theorem count_narrowing_witness :
    bigHeap.processorAt 1 = some bigProcessor ∧
      ∃ (r : Int32Array) (h' : Heap), encodeAsIds bigHeap 1 "x" = .ret (r, h') ∧
        r.len = -2147483648 ∧ (bigProcessor.EncodeAsIds "x").length = 2147483648 := by
  refine ⟨rfl, ?_⟩
  obtain ⟨r, h', hr, _, hbig⟩ := (count_narrowing bigHeap 1 bigProcessor "x" rfl).1
  have hl : (bigProcessor.EncodeAsIds "x").length = 2 ^ 31 := List.length_replicate _ _
  refine ⟨r, h', hr, ?_, by rw [hl]; norm_num⟩
  have := (hbig (by rw [hl]; norm_num)).1
  rw [hl] at this
  rw [this]
  norm_num

end SentencepieceC
